import Mathlib

/-!
Verification of the window arrangement engine of `powershellmanager`.

The Rust source (src/monitor.rs, src/layout.rs, src/activity.rs, src/config.rs,
src/arrange.rs) is embedded shallowly:

* `i32`/`u32`/`usize` arithmetic is modelled with `Int`/`Nat`; Rust's `/` on
  `i32` truncates toward zero, so it is modelled with `Int.tdiv`.
* `f32`/`f64` values appearing in exact integer bookkeeping
  (`compute_weighted_grid`'s weights) are modelled as `ℚ` with truncation
  toward zero for the `as i32` cast; `f64` values in the activity tracker
  (focus seconds, timestamps, decay factors, scores) are modelled as `ℝ`.
* `HashMap` iteration in `apply_decay` touches each entry independently, so the
  database is modelled as an association list.
* OS calls (`EnumDisplayMonitors`, `find_windows`, `SetWindowPos`) are inputs /
  outputs of the pure model: monitor and window lists are parameters, and the
  positioning calls that `arrange_masked` would issue are returned as a list of
  (window, slot) pairs, with every `SetWindowPos` call modelled as succeeding.
-/

/-- `Rect` from src/monitor.rs: axis-aligned rectangle (`i32` fields). -/
structure Rect where
  x : Int
  y : Int
  w : Int
  h : Int
  deriving DecidableEq, Repr

/-- `Slot` from src/layout.rs: a placement rectangle (`i32` fields). -/
structure Slot where
  x : Int
  y : Int
  w : Int
  h : Int
  deriving DecidableEq, Repr

/-- `LayoutPreset` from src/layout.rs (the `u32` parameters become `Nat`). -/
inductive LayoutPreset where
  | Grid (cols rows : Nat)
  | Columns (n : Nat)
  | Rows (n : Nat)
  | LeftRight
  | TopBottom
  | MainSide (side_count : Nat)
  | Focus (side_count : Nat)
  deriving DecidableEq, Repr

/-- `LayoutPreset::slot_count` from src/layout.rs. -/
def LayoutPreset.slot_count : LayoutPreset → Nat
  | .Grid cols rows => cols * rows
  | .Columns n => n
  | .Rows n => n
  | .LeftRight => 2
  | .TopBottom => 2
  | .MainSide side_count => 1 + side_count
  | .Focus side_count => 1 + side_count

/-- `LayoutPreset::compute_slots` from src/layout.rs.  Rust's `i32` division
truncates toward zero, hence `Int.tdiv`.  The row-major push loops become
`List.flatten` over `List.range`. -/
def LayoutPreset.compute_slots (p : LayoutPreset) (area : Rect) (gap : Int) : List Slot :=
  match p with
  | .Grid cols rows =>
      let cell_w := (area.w - gap * ((cols : Int) - 1)).tdiv cols
      let cell_h := (area.h - gap * ((rows : Int) - 1)).tdiv rows
      ((List.range rows).map (fun (r : Nat) =>
        (List.range cols).map (fun (c : Nat) =>
          Slot.mk (area.x + (c : Int) * (cell_w + gap)) (area.y + (r : Int) * (cell_h + gap))
            cell_w cell_h))).flatten
  | .Columns n =>
      let col_w := (area.w - gap * ((n : Int) - 1)).tdiv n
      (List.range n).map (fun (i : Nat) =>
        Slot.mk (area.x + (i : Int) * (col_w + gap)) area.y col_w area.h)
  | .Rows n =>
      let row_h := (area.h - gap * ((n : Int) - 1)).tdiv n
      (List.range n).map (fun (i : Nat) =>
        Slot.mk area.x (area.y + (i : Int) * (row_h + gap)) area.w row_h)
  | .LeftRight =>
      let half_w := (area.w - gap).tdiv 2
      [Slot.mk area.x area.y half_w area.h,
       Slot.mk (area.x + half_w + gap) area.y half_w area.h]
  | .TopBottom =>
      let half_h := (area.h - gap).tdiv 2
      [Slot.mk area.x area.y area.w half_h,
       Slot.mk area.x (area.y + half_h + gap) area.w half_h]
  | .MainSide side_count =>
      let main_w := ((area.w - gap) * 2).tdiv 3
      let side_w := area.w - main_w - gap
      let side_h := (area.h - gap * ((side_count : Int) - 1)).tdiv side_count
      Slot.mk area.x area.y main_w area.h ::
        (List.range side_count).map (fun (i : Nat) =>
          Slot.mk (area.x + main_w + gap) (area.y + (i : Int) * (side_h + gap)) side_w side_h)
  | .Focus side_count =>
      let main_w := ((area.w - gap) * 3).tdiv 4
      let side_w := area.w - main_w - gap
      let side_h := (area.h - gap * ((side_count : Int) - 1)).tdiv side_count
      Slot.mk area.x area.y main_w area.h ::
        (List.range side_count).map (fun (i : Nat) =>
          Slot.mk (area.x + main_w + gap) (area.y + (i : Int) * (side_h + gap)) side_w side_h)

/-- Truncation toward zero of a rational, modelling Rust's `as i32` cast of an
`f32` product in `compute_weighted_grid`. -/
def ratTrunc (q : ℚ) : Int := q.num.tdiv (q.den : Int)

/-- Add `d` to the last element of a list (Rust `if let Some(last) = v.last_mut()
\x7b *last += d \x7d`; a no-op on the empty list). -/
def adjustLast (d : Int) : List Int → List Int
  | [] => []
  | [a] => [a + d]
  | a :: b :: rest => a :: adjustLast d (b :: rest)

/-- The per-column (or per-row) pixel spans of `compute_weighted_grid` from
src/layout.rs: each weight is multiplied by the usable span and truncated, then
the leftover pixels are given to the last entry. -/
def weightedSpans (usable : Int) (weights : List ℚ) : List Int :=
  let spans := weights.map (fun w => ratTrunc ((usable : ℚ) * w))
  adjustLast (usable - spans.sum) spans

/-- The cumulative offsets loop of `compute_weighted_grid`: starting at `start`,
each entry advances by its span plus the gap.  (The Rust loop skips the final
advance, which only affects a variable that is never read again.) -/
def cumOffsets (gap : Int) : Int → List Int → List Int
  | _, [] => []
  | start, s :: rest => start :: cumOffsets gap (start + s + gap) rest

/-- `compute_weighted_grid` from src/layout.rs.  Out-of-range indexing of
`col_x[c]` / `row_y[r]` (a Rust panic, unreachable for callers that pass weight
slices of length `cols` / `rows`) is modelled as the default value `0`. -/
def compute_weighted_grid (cols rows : Nat) (area : Rect) (gap : Int)
    (col_weights row_weights : List ℚ) : List Slot :=
  let usable_w := area.w - gap * ((cols : Int) - 1)
  let usable_h := area.h - gap * ((rows : Int) - 1)
  let col_widths := weightedSpans usable_w col_weights
  let row_heights := weightedSpans usable_h row_weights
  let col_x := cumOffsets gap area.x col_widths
  let row_y := cumOffsets gap area.y row_heights
  ((List.range rows).map (fun r =>
    (List.range cols).map (fun c =>
      Slot.mk (col_x.getD c 0) (row_y.getD r 0) (col_widths.getD c 0)
        (row_heights.getD r 0)))).flatten

/-- The `r`-th row of a row-major slot list with `cols` columns (statement-side
helper for tiling claims). -/
def gridRow (slots : List Slot) (cols r : Nat) : List Slot :=
  (List.range cols).map (fun c => slots.getD (r * cols + c) (Slot.mk 0 0 0 0))

/-- The `c`-th column of a row-major slot list with `cols` columns and `rows`
rows (statement-side helper for tiling claims). -/
def gridCol (slots : List Slot) (cols rows c : Nat) : List Slot :=
  (List.range rows).map (fun r => slots.getD (r * cols + c) (Slot.mk 0 0 0 0))

/-- `MonitorInfo` from src/monitor.rs. -/
structure MonitorInfo where
  index : Nat
  is_primary : Bool
  work_area : Rect
  deriving DecidableEq, Repr

/-- Rust's `str::parse::<usize>()` (`usize` = `u64` on the 64-bit target): an
optional leading `+`, then one or more decimal digits, failing with `Err`
(modelled as `none`) when the value overflows past `u64::MAX = 2^64 - 1`. -/
def parse_usize (s : String) : Option Nat :=
  let digits := if s.data.head? = some '+' then s.data.tail else s.data
  if digits ≠ [] ∧ digits.all (fun c => c.isDigit) then
    let v := digits.foldl (fun n c => n * 10 + (c.toNat - '0'.toNat)) 0
    if v < 2 ^ 64 then some v else none
  else none

/-- `resolve_monitor` from src/monitor.rs.  Rust's `&monitors[0]` panics on an
empty list; the model returns `none` there, and `some` of the resolved monitor
otherwise. -/
def resolve_monitor (monitors : List MonitorInfo) (spec : String) : Option MonitorInfo :=
  match monitors with
  | [] => none
  | m0 :: _ =>
    if spec = "primary" ∨ spec = "" then
      some ((monitors.find? (fun m => m.is_primary)).getD m0)
    else
      match parse_usize spec with
      | some idx => some ((monitors.get? idx).getD m0)
      | none => some ((monitors.find? (fun m => m.is_primary)).getD m0)

/-- `AppCategory` from src/windows.rs. -/
inductive AppCategory where
  | Terminal
  | Browser
  | Editor
  | Chat
  | Media
  | Game
  | DevTool
  | System
  | Other
  deriving DecidableEq, Repr

/-- `ManagedWindow` from src/windows.rs (`hwnd: isize` becomes `Int`). -/
structure ManagedWindow where
  hwnd : Int
  title : String
  process_name : String
  category : AppCategory
  rect : Rect
  is_minimized : Bool
  deriving DecidableEq, Repr

/-- Substring test on character lists: does `needle` occur contiguously inside
`hay`?  Models Rust's `str::contains` on the decoded character sequence. -/
def listContainsSub (hay needle : List Char) : Bool :=
  match hay with
  | [] => needle.isEmpty
  | c :: t => needle.isPrefixOf (c :: t) || listContainsSub t needle

/-- Rust `str::contains` (substring). -/
def containsSubstr (hay needle : String) : Bool :=
  listContainsSub hay.data needle.data

/-- Rust `str::to_lowercase`, modelled characterwise via `Char.toLower` (the
pin-rule claims only involve ASCII names). -/
def to_lowercase (s : String) : String := String.mk (s.data.map Char.toLower)

/-- `PinRule` from src/config.rs. -/
structure PinRule where
  process : Option String
  title_contains : Option String
  slot : Nat
  deriving DecidableEq, Repr

/-- `PinRule::matches` from src/config.rs. -/
def PinRule.matches (rule : PinRule) (process_name title : String) : Bool :=
  (match rule.process with
   | some proc => to_lowercase process_name == to_lowercase proc
   | none => false) ||
  (match rule.title_contains with
   | some substr => containsSubstr (to_lowercase title) (to_lowercase substr)
   | none => false)

/-- `ArrangeResult` from src/arrange.rs. -/
structure ArrangeResult where
  arranged : Nat
  skipped : Nat
  errors : List String
  deriving DecidableEq, Repr

/-- The inner pin-matching loop of `arrange_masked` (src/arrange.rs lines
62-68): the first rule that matches the window and whose slot index is within
the enabled-slot count gives the pinned slot. -/
def pin_slot_of (pin_rules : List PinRule) (nslots : Nat) (w : ManagedWindow) : Option Nat :=
  match pin_rules with
  | [] => none
  | r :: rest =>
    if r.matches w.process_name w.title && decide (r.slot < nslots) then some r.slot
    else pin_slot_of rest nslots w

/-- The partition loop of `arrange_masked` (lines 58-74): split the discovered
windows, in order, into pinned `(slot, window)` pairs and unpinned windows. -/
def split_pins (pin_rules : List PinRule) (nslots : Nat) :
    List ManagedWindow → List (Nat × ManagedWindow) × List ManagedWindow
  | [] => ([], [])
  | w :: ws =>
    match pin_slot_of pin_rules nslots w with
    | some s => ((s, w) :: (split_pins pin_rules nslots ws).1, (split_pins pin_rules nslots ws).2)
    | none => ((split_pins pin_rules nslots ws).1, w :: (split_pins pin_rules nslots ws).2)

/-- The score-and-sort step (lines 77-85 and 136-144): a stable descending sort
by score when a tracker is present.  Scores (`f64` in Rust) are modelled as an
abstract `ℚ`-valued score function; Rust's stable `sort_by` with the reversed
comparator becomes a stable merge sort with the `≥`-on-scores ordering. -/
def sort_by_score (activity : Option (ManagedWindow → ℚ)) (ws : List ManagedWindow) :
    List ManagedWindow :=
  match activity with
  | some score => ws.mergeSort (fun a b => decide (score b ≤ score a))
  | none => ws

/-- The pinned-placement loop (lines 91-96): write each pinned window at its
slot index, later writes overwriting earlier ones.  (`List.set` is a no-op out
of range, exactly like the bounds-guarded Rust assignment.) -/
def place_pinned (pinned : List (Nat × ManagedWindow)) (init : List (Option ManagedWindow)) :
    List (Option ManagedWindow) :=
  pinned.foldl (fun acc sw => acc.set sw.1 (some sw.2)) init

/-- The fill loop (lines 98-106): walk the slot array in index order and put the
next unpinned window into every slot that is still empty and not pinned;
returns the filled array and the leftover unpinned windows. -/
def fill_slots (used : List Nat) :
    List (Option ManagedWindow) → Nat → List ManagedWindow →
      List (Option ManagedWindow) × List ManagedWindow
  | [], _, us => ([], us)
  | o :: rest, i, us =>
    if o.isNone && !(used.contains i) then
      match us with
      | [] => (o :: (fill_slots used rest (i + 1) []).1, (fill_slots used rest (i + 1) []).2)
      | u :: ut =>
          (some u :: (fill_slots used rest (i + 1) ut).1, (fill_slots used rest (i + 1) ut).2)
    else (o :: (fill_slots used rest (i + 1) us).1, (fill_slots used rest (i + 1) us).2)

/-- The positioning loop over the assignment array (lines 112-128): each
assigned window is positioned at its slot.  `SetWindowPos` is modelled as
succeeding, so the issued calls are exactly the assigned (window, slot)
pairs. -/
def position_calls (final : List (Option ManagedWindow)) (slots : List Slot) :
    List (ManagedWindow × Slot) :=
  (final.zip slots).filterMap (fun p => p.1.map (fun w => (w, p.2)))

/-- The enabled-slot filter of `arrange_masked` (lines 47-52): drop the slots
whose index is in the disabled set, keeping relative order. -/
def enabled_slots (all_slots : List Slot) (disabled : List Nat) : List Slot :=
  (all_slots.enum.filter (fun p => !(disabled.contains p.1))).map (fun p => p.2)

/-- The slot list `arrange_masked` computes for a resolved monitor (lines
40-52): weighted grid when weights are supplied and the preset is a grid,
otherwise the preset's own slots; then the disabled indices are removed. -/
def arrange_slots (monitor : MonitorInfo) (preset : LayoutPreset) (gap : Int)
    (disabled : List Nat) (weights : Option (List ℚ × List ℚ)) : List Slot :=
  let all_slots :=
    match weights, preset with
    | some (col_w, row_w), LayoutPreset.Grid cols rows =>
        compute_weighted_grid cols rows monitor.work_area gap col_w row_w
    | _, _ => preset.compute_slots monitor.work_area gap
  enabled_slots all_slots disabled

/-- The window-to-slot assignment of the smart-sort-with-pins path (lines
56-106) as a pure function: pinned windows take their exact slots (later
duplicates overwrite), sorted unpinned windows fill the remaining slots;
returns the assignment array and the leftover (skipped) windows. -/
def assign_with_pins (slots : List Slot) (windows : List ManagedWindow)
    (activity : Option (ManagedWindow → ℚ)) (pin_rules : List PinRule) :
    List (Option ManagedWindow) × List ManagedWindow :=
  let pu := split_pins pin_rules slots.length windows
  let unpinned := sort_by_score activity pu.2
  let used_slots := pu.1.map (fun p => p.1)
  fill_slots used_slots (place_pinned pu.1 (List.replicate slots.length none)) 0 unpinned

/-- `arrange_masked` from src/arrange.rs as a pure function.  The OS inputs
(monitor enumeration, window discovery) are parameters; the returned pair is
the `ArrangeResult` together with the `SetWindowPos` calls the function issues,
each modelled as succeeding (so `errors` is always empty in the model). -/
def arrange_masked (monitors : List MonitorInfo) (preset : LayoutPreset)
    (monitor_spec : String) (gap : Int) (disabled : List Nat)
    (weights : Option (List ℚ × List ℚ)) (windows0 : List ManagedWindow)
    (smart_sort : Bool) (activity : Option (ManagedWindow → ℚ))
    (pin_rules : List PinRule) : ArrangeResult × List (ManagedWindow × Slot) :=
  match monitors with
  | [] => (ArrangeResult.mk 0 0 ["No monitors detected"], [])
  | m0 :: rest =>
    let monitor := (resolve_monitor (m0 :: rest) monitor_spec).getD m0
    let slots := arrange_slots monitor preset gap disabled weights
    if smart_sort && !pin_rules.isEmpty then
      let fl := assign_with_pins slots windows0 activity pin_rules
      let calls := position_calls fl.1 slots
      (ArrangeResult.mk calls.length fl.2.length [], calls)
    else
      let windows := if smart_sort then sort_by_score activity windows0 else windows0
      let assigned := windows.zip slots
      (ArrangeResult.mk assigned.length (windows.length - slots.length) [], assigned)

/-- `AppRecord` from src/activity.rs (`f64` fields become `ℝ`, `u64` becomes
`Nat`). -/
structure AppRecord where
  total_focus_secs : ℝ
  total_switches : Nat
  last_focus_ts : ℝ
  category : String
  last_title : String

/-- `ActivityDb` from src/activity.rs; the `HashMap` becomes an association
list (decay touches each entry independently of iteration order). -/
structure ActivityDb where
  apps : List (String × AppRecord)
  last_decay_ts : ℝ

/-- The per-record update inside `apply_decay` (src/activity.rs lines 185-188):
focus seconds are scaled by the factor, the switch count is scaled as a float
and truncated back (`as u64` on a nonnegative value is the floor). -/
noncomputable def decay_record (factor : ℝ) (r : AppRecord) : AppRecord :=
  { r with
    total_focus_secs := r.total_focus_secs * factor
    total_switches := ⌊(r.total_switches : ℝ) * factor⌋₊ }

/-- `ActivityTracker::apply_decay` from src/activity.rs (lines 176-200) as a
pure function of the database, the current time `now`, and the configured
half-life: when a previous decay timestamp exists and more than 0.001 days have
elapsed, every record is scaled by `0.5 ^ (elapsed_days / half_life_days)` and
records with focus below 1.0 and zero switches are pruned; the decay timestamp
is always reset to `now`. -/
noncomputable def apply_decay (db : ActivityDb) (now half_life_days : ℝ) : ActivityDb :=
  if db.last_decay_ts > 0 then
    let elapsed_days := (now - db.last_decay_ts) / 86400
    if elapsed_days > 0.001 then
      let factor := (0.5 : ℝ) ^ (elapsed_days / half_life_days)
      ActivityDb.mk
        (((db.apps.map (fun p => (p.1, decay_record factor p.2))).filter
          (fun p => decide (¬(p.2.total_focus_secs < 1 ∧ p.2.total_switches = 0)))))
        now
    else ActivityDb.mk db.apps now
  else ActivityDb.mk db.apps now

/-- The recency-hours computation of `ActivityTracker::score_windows`
(src/activity.rs line 248): hours since last focus, with the sentinel 999 when
the app was never focused. -/
noncomputable def recency_hours_of (now last_focus : ℝ) : ℝ :=
  if last_focus > 0 then (now - last_focus) / 3600 else 999

/-- The scoring formula of `ActivityTracker::score_windows` (src/activity.rs
lines 246-251), as a function of the summed focus seconds, summed switch count,
and recency hours: `max(ln(max(focus,1)),0)*10 + sqrt(switches)*5 +
0.5^(hours/4)*50`. -/
noncomputable def score_formula (total_focus total_switches recency_hours : ℝ) : ℝ :=
  max (Real.log (max total_focus 1)) 0 * 10 + Real.sqrt total_switches * 5 +
    (0.5 : ℝ) ^ (recency_hours / 4) * 50

/-- The per-window score of `score_windows` in terms of the raw record data. -/
noncomputable def score_window (now total_focus total_switches last_focus : ℝ) : ℝ :=
  score_formula total_focus total_switches (recency_hours_of now last_focus)

/-- C8: when monitor enumeration yields an empty list, `arrange_masked` returns
a zero-result (arranged = 0, skipped = 0) carrying the descriptive error string
"No monitors detected", and issues no positioning call. -/
theorem arrange_masked_no_monitors (preset : LayoutPreset) (spec : String) (gap : Int)
    (disabled : List Nat) (weights : Option (List ℚ × List ℚ))
    (windows : List ManagedWindow) (smart_sort : Bool)
    (activity : Option (ManagedWindow → ℚ)) (pin_rules : List PinRule) :
    arrange_masked [] preset spec gap disabled weights windows smart_sort activity pin_rules =
      (ArrangeResult.mk 0 0 ["No monitors detected"], []) := rfl

/-- C10: a pin rule with both fields absent matches nothing, and a pin rule
with both fields present matches exactly when the process name matches
case-insensitively OR the lowered title contains the lowered substring (a
disjunction). -/
theorem pin_rule_matches_spec :
    (∀ (slot : Nat) (pn t : String), (PinRule.mk none none slot).matches pn t = false) ∧
    (∀ (proc sub : String) (slot : Nat) (pn t : String),
      (PinRule.mk (some proc) (some sub) slot).matches pn t =
        (to_lowercase pn == to_lowercase proc ||
          containsSubstr (to_lowercase t) (to_lowercase sub))) :=
  ⟨fun _ _ _ => rfl, fun _ _ _ _ _ => rfl⟩

theorem mem_find_primary_getD (m0 : MonitorInfo) (rest : List MonitorInfo) :
    (((m0 :: rest).find? (fun x => x.is_primary)).getD m0) ∈ m0 :: rest := by
  cases h : (m0 :: rest).find? (fun x => x.is_primary) with
  | none => simp
  | some m => simpa using List.mem_of_find?_eq_some h

theorem mem_get?_getD (m0 : MonitorInfo) (rest : List MonitorInfo) (idx : Nat) :
    (((m0 :: rest).get? idx).getD m0) ∈ m0 :: rest := by
  cases h : (m0 :: rest).get? idx with
  | none => simp
  | some m => simpa using List.get?_mem h

/-- C7: on a non-empty monitor list, `resolve_monitor` always returns some
member of the list; spec "primary" or "" (and any non-numeric spec) yields the
first primary monitor, falling back to the head of the list, and a numeric
spec yields the monitor at that index, falling back to the head when out of
range. -/
theorem resolve_monitor_spec (m0 : MonitorInfo) (rest : List MonitorInfo) (spec : String) :
    ∃ m, resolve_monitor (m0 :: rest) spec = some m ∧ m ∈ m0 :: rest ∧
      ((spec = "primary" ∨ spec = "" ∨ parse_usize spec = none) →
        m = (((m0 :: rest).find? (fun x => x.is_primary)).getD m0)) ∧
      (∀ idx, parse_usize spec = some idx → m = (((m0 :: rest).get? idx).getD m0)) := by
  by_cases hps : spec = "primary" ∨ spec = ""
  · refine ⟨((m0 :: rest).find? (fun x => x.is_primary)).getD m0,
      by simp [resolve_monitor, hps], mem_find_primary_getD m0 rest, fun _ => rfl, ?_⟩
    intro idx hidx
    rcases hps with h | h
    · subst h
      exact Option.noConfusion
        ((show parse_usize "primary" = (none : Option Nat) by decide).symm.trans hidx)
    · subst h
      exact Option.noConfusion
        ((show parse_usize "" = (none : Option Nat) by decide).symm.trans hidx)
  · cases h : parse_usize spec with
    | some idx0 =>
      refine ⟨((m0 :: rest).get? idx0).getD m0,
        by simp [resolve_monitor, hps, h], mem_get?_getD m0 rest idx0, ?_, ?_⟩
      · intro hcl
        rcases hcl with hc | hc | hc
        · exact absurd (Or.inl hc) hps
        · exact absurd (Or.inr hc) hps
        · exact Option.noConfusion hc
      · intro idx hidx
        cases hidx
        rfl
    | none =>
      refine ⟨((m0 :: rest).find? (fun x => x.is_primary)).getD m0,
        by simp [resolve_monitor, hps, h], mem_find_primary_getD m0 rest, fun _ => rfl, ?_⟩
      intro idx hidx
      exact Option.noConfusion hidx

def mA : MonitorInfo := MonitorInfo.mk 0 false (Rect.mk 0 0 100 100)

def mB : MonitorInfo := MonitorInfo.mk 1 true (Rect.mk 100 0 100 100)

/-- Witness for C7 at the concrete list `[mA, mB]` and spec `"1"`. -/
theorem resolve_monitor_spec_witness :
    ∃ m, resolve_monitor [mA, mB] "1" = some m ∧ m ∈ [mA, mB] ∧
      (("1" = "primary" ∨ "1" = "" ∨ parse_usize "1" = none) →
        m = (([mA, mB].find? (fun x => x.is_primary)).getD mA)) ∧
      (∀ idx, parse_usize "1" = some idx → m = (([mA, mB].get? idx).getD mA)) :=
  resolve_monitor_spec mA [mB] "1"

theorem map_range_getD {α : Type} (f : Nat → α) {n i : Nat} (hi : i < n) (d : α) :
    ((List.range n).map f).getD i d = f i := by
  rw [List.getD_eq_getElem _ _ (by simpa using hi)]
  simp

theorem map_getD_range {α : Type} (l : List α) (d : α) (n : Nat) (h : l.length = n) :
    (List.range n).map (fun i => l.getD i d) = l := by
  subst h
  apply List.ext_getElem (by simp)
  intro i h1 h2
  simp only [List.getElem_map, List.getElem_range]
  exact List.getD_eq_getElem l d h2

theorem flatten_getD {α : Type} (d : α) :
    ∀ (L : List (List α)) (n r c : Nat), (∀ l ∈ L, l.length = n) → c < n → r < L.length →
      L.flatten.getD (r * n + c) d = (L.getD r []).getD c d := by
  intro L
  induction L with
  | nil => intro n r c _ _ hr; simp at hr
  | cons l0 rest ih =>
    intro n r c hn hc hr
    have hl0 : l0.length = n := hn l0 (by simp)
    cases r with
    | zero =>
      simp only [List.flatten_cons, Nat.zero_mul, Nat.zero_add, List.getD_cons_zero]
      exact List.getD_append _ _ _ _ (by omega)
    | succ r =>
      have hrec := ih n r c (fun l hl => hn l (List.mem_cons_of_mem _ hl)) hc
        (Nat.lt_of_succ_lt_succ hr)
      have hidx : (r + 1) * n + c = l0.length + (r * n + c) := by rw [hl0]; ring
      calc (l0 :: rest).flatten.getD ((r + 1) * n + c) d
          = (l0 ++ rest.flatten).getD (l0.length + (r * n + c)) d := by
            rw [List.flatten_cons, hidx]
        _ = rest.flatten.getD (l0.length + (r * n + c) - l0.length) d :=
            List.getD_append_right _ _ _ _ (Nat.le_add_right _ _)
        _ = rest.flatten.getD (r * n + c) d := by rw [Nat.add_sub_cancel_left]
        _ = (rest.getD r []).getD c d := hrec
        _ = ((l0 :: rest).getD (r + 1) []).getD c d := by rw [List.getD_cons_succ]

theorem adjustLast_length (d : Int) : ∀ l : List Int, (adjustLast d l).length = l.length
  | [] => rfl
  | [_] => rfl
  | _ :: b :: rest => by
      simp only [adjustLast, List.length_cons]
      rw [adjustLast_length d (b :: rest)]
      simp

theorem adjustLast_sum (d : Int) : ∀ l : List Int, l ≠ [] → (adjustLast d l).sum = l.sum + d
  | [], h => absurd rfl h
  | [a], _ => by simp [adjustLast]
  | a :: b :: rest, _ => by
      simp only [adjustLast, List.sum_cons]
      rw [adjustLast_sum d (b :: rest) (by simp)]
      simp only [List.sum_cons]
      ring

theorem weightedSpans_length (usable : Int) (weights : List ℚ) :
    (weightedSpans usable weights).length = weights.length := by
  unfold weightedSpans
  rw [adjustLast_length]
  simp

theorem weightedSpans_sum (usable : Int) (weights : List ℚ) (h : weights ≠ []) :
    (weightedSpans usable weights).sum = usable := by
  unfold weightedSpans
  rw [adjustLast_sum _ _ (by simpa using h)]
  omega

theorem grid_slots_getD (cols rows : Nat) (area : Rect) (gap : Int) {r c : Nat}
    (hr : r < rows) (hc : c < cols) :
    ((LayoutPreset.Grid cols rows).compute_slots area gap).getD (r * cols + c) (Slot.mk 0 0 0 0) =
      Slot.mk (area.x + (c : Int) * ((area.w - gap * ((cols : Int) - 1)).tdiv cols + gap))
        (area.y + (r : Int) * ((area.h - gap * ((rows : Int) - 1)).tdiv rows + gap))
        ((area.w - gap * ((cols : Int) - 1)).tdiv cols)
        ((area.h - gap * ((rows : Int) - 1)).tdiv rows) := by
  simp only [LayoutPreset.compute_slots]
  rw [flatten_getD _ _ cols r c ?_ hc ?_]
  · rw [map_range_getD _ hr, map_range_getD _ hc]
  · intro l hl
    rcases List.mem_map.mp hl with ⟨j, _, rfl⟩
    simp
  · simpa using hr

/-- C1 (amended): for a `Grid` preset with cols,rows ≥ 1 and positive gap, the
slot list tiles the area exactly precisely when the integer divisions are
exact: if `cols` divides the usable width `area.w - gap*(cols-1)` and `rows`
divides the usable height, then the sum of the slot widths across any row plus
`(cols-1)*gap` equals `area.w`, and the sum of the slot heights down any column
plus `(rows-1)*gap` equals `area.h`.  (The unamended claim — exact tiling for
every area — fails because the integer division truncates; see the
counterexample.) -/
theorem grid_compute_slots_tiles (cols rows : Nat) (area : Rect) (gap : Int)
    (hc : 1 ≤ cols) (hr : 1 ≤ rows) (hgap : 0 < gap)
    (hdw : (cols : Int) ∣ (area.w - gap * ((cols : Int) - 1)))
    (hdh : (rows : Int) ∣ (area.h - gap * ((rows : Int) - 1))) :
    (∀ r < rows,
      ((gridRow ((LayoutPreset.Grid cols rows).compute_slots area gap) cols r).map Slot.w).sum
        + ((cols : Int) - 1) * gap = area.w) ∧
    (∀ c < cols,
      ((gridCol ((LayoutPreset.Grid cols rows).compute_slots area gap) cols rows c).map
          Slot.h).sum + ((rows : Int) - 1) * gap = area.h) := by
  constructor
  · intro r hrr
    have hmap : (gridRow ((LayoutPreset.Grid cols rows).compute_slots area gap) cols r).map Slot.w
        = (List.range cols).map (fun _ => (area.w - gap * ((cols : Int) - 1)).tdiv cols) := by
      unfold gridRow
      rw [List.map_map]
      apply List.map_congr_left
      intro c hcmem
      have hcc : c < cols := List.mem_range.mp hcmem
      simp only [Function.comp_apply]
      rw [grid_slots_getD cols rows area gap hrr hcc]
    rw [hmap, List.map_const', List.sum_replicate, List.length_range, nsmul_eq_mul,
      Int.tdiv_eq_ediv_of_dvd hdw, Int.mul_ediv_cancel' hdw]
    ring
  · intro c hcc
    have hmap : (gridCol ((LayoutPreset.Grid cols rows).compute_slots area gap) cols rows c).map
          Slot.h
        = (List.range rows).map (fun _ => (area.h - gap * ((rows : Int) - 1)).tdiv rows) := by
      unfold gridCol
      rw [List.map_map]
      apply List.map_congr_left
      intro r hrmem
      have hrr : r < rows := List.mem_range.mp hrmem
      simp only [Function.comp_apply]
      rw [grid_slots_getD cols rows area gap hrr hcc]
    rw [hmap, List.map_const', List.sum_replicate, List.length_range, nsmul_eq_mul,
      Int.tdiv_eq_ediv_of_dvd hdh, Int.mul_ediv_cancel' hdh]
    ring

/-- C1 counterexample: for `Grid{cols:=2, rows:=1}`, gap 1 and a 102×100 area,
the sum of the slot widths across row 0 plus `(cols-1)*gap` is 101, not 102 —
the truncating division silently drops the remainder pixel, so the claimed
exact tiling fails as stated. -/
theorem grid_compute_slots_not_exact :
    ((gridRow ((LayoutPreset.Grid 2 1).compute_slots (Rect.mk 0 0 102 100) 1) 2 0).map
        Slot.w).sum + ((2 : Int) - 1) * 1 ≠ (102 : Int) := by decide

/-- Witness for the amended C1 at the spec's own scenario: 2×2 grid, gap 10,
1000×1000 area (usable span 990 is divisible by 2). -/
theorem grid_compute_slots_tiles_witness :
    1 ≤ 2 ∧ (0 : Int) < 10 ∧ ((2 : Nat) : Int) ∣ (1000 - 10 * (((2 : Nat) : Int) - 1)) ∧
    ((∀ r < 2,
      ((gridRow ((LayoutPreset.Grid 2 2).compute_slots (Rect.mk 0 0 1000 1000) 10) 2 r).map
          Slot.w).sum + (((2 : Nat) : Int) - 1) * 10 = 1000) ∧
     (∀ c < 2,
      ((gridCol ((LayoutPreset.Grid 2 2).compute_slots (Rect.mk 0 0 1000 1000) 10) 2 2 c).map
          Slot.h).sum + (((2 : Nat) : Int) - 1) * 10 = 1000)) :=
  ⟨by decide, by decide, by decide,
    grid_compute_slots_tiles 2 2 (Rect.mk 0 0 1000 1000) 10 (by decide) (by decide)
      (by decide) (by decide) (by decide)⟩

theorem weighted_slots_getD (cols rows : Nat) (area : Rect) (gap : Int)
    (col_weights row_weights : List ℚ) {r c : Nat} (hr : r < rows) (hc : c < cols) :
    (compute_weighted_grid cols rows area gap col_weights row_weights).getD (r * cols + c)
        (Slot.mk 0 0 0 0) =
      Slot.mk
        ((cumOffsets gap area.x
            (weightedSpans (area.w - gap * ((cols : Int) - 1)) col_weights)).getD c 0)
        ((cumOffsets gap area.y
            (weightedSpans (area.h - gap * ((rows : Int) - 1)) row_weights)).getD r 0)
        ((weightedSpans (area.w - gap * ((cols : Int) - 1)) col_weights).getD c 0)
        ((weightedSpans (area.h - gap * ((rows : Int) - 1)) row_weights).getD r 0) := by
  simp only [compute_weighted_grid]
  rw [flatten_getD _ _ cols r c ?_ hc ?_]
  · rw [map_range_getD _ hr, map_range_getD _ hc]
  · intro l hl
    rcases List.mem_map.mp hl with ⟨j, _, rfl⟩
    simp
  · simpa using hr

/-- C3: for weight lists of lengths cols and rows (cols,rows ≥ 1), the column
widths of `compute_weighted_grid` sum exactly to the usable width
`area.w - gap*(cols-1)` along every row, and the row heights sum exactly to
the usable height down every column — for arbitrary weight values (in
particular for positive weights summing approximately to 1), because the last
column/row absorbs the residual. -/
theorem compute_weighted_grid_sums (cols rows : Nat) (area : Rect) (gap : Int)
    (col_weights row_weights : List ℚ)
    (hcw : col_weights.length = cols) (hrw : row_weights.length = rows)
    (hc : 1 ≤ cols) (hr : 1 ≤ rows) :
    (∀ r < rows,
      ((gridRow (compute_weighted_grid cols rows area gap col_weights row_weights) cols r).map
          Slot.w).sum = area.w - gap * ((cols : Int) - 1)) ∧
    (∀ c < cols,
      ((gridCol (compute_weighted_grid cols rows area gap col_weights row_weights) cols rows
          c).map Slot.h).sum = area.h - gap * ((rows : Int) - 1)) := by
  constructor
  · intro r hrr
    have hmap : (gridRow (compute_weighted_grid cols rows area gap col_weights row_weights)
          cols r).map Slot.w
        = (List.range cols).map
            (fun c => (weightedSpans (area.w - gap * ((cols : Int) - 1)) col_weights).getD c 0) := by
      unfold gridRow
      rw [List.map_map]
      apply List.map_congr_left
      intro c hcmem
      have hcc : c < cols := List.mem_range.mp hcmem
      simp only [Function.comp_apply]
      rw [weighted_slots_getD cols rows area gap col_weights row_weights hrr hcc]
    have hlen : (weightedSpans (area.w - gap * ((cols : Int) - 1)) col_weights).length = cols := by
      rw [weightedSpans_length, hcw]
    rw [hmap, map_getD_range _ _ _ hlen]
    exact weightedSpans_sum _ _ (List.length_pos.mp (by omega))
  · intro c hcc
    have hmap : (gridCol (compute_weighted_grid cols rows area gap col_weights row_weights)
          cols rows c).map Slot.h
        = (List.range rows).map
            (fun r => (weightedSpans (area.h - gap * ((rows : Int) - 1)) row_weights).getD r 0) := by
      unfold gridCol
      rw [List.map_map]
      apply List.map_congr_left
      intro r hrmem
      have hrr : r < rows := List.mem_range.mp hrmem
      simp only [Function.comp_apply]
      rw [weighted_slots_getD cols rows area gap col_weights row_weights hrr hcc]
    have hlen : (weightedSpans (area.h - gap * ((rows : Int) - 1)) row_weights).length = rows := by
      rw [weightedSpans_length, hrw]
    rw [hmap, map_getD_range _ _ _ hlen]
    exact weightedSpans_sum _ _ (List.length_pos.mp (by omega))

/-- Witness for C3: 2×2 weighted grid, weights (0.3, 0.7) / (0.5, 0.5), gap 10,
1000×1000 area. -/
theorem compute_weighted_grid_sums_witness :
    ([(3 : ℚ)/10, 7/10] : List ℚ).length = 2 ∧ ([(1 : ℚ)/2, 1/2] : List ℚ).length = 2 ∧
    ((∀ r < 2,
      ((gridRow (compute_weighted_grid 2 2 (Rect.mk 0 0 1000 1000) 10 [(3 : ℚ)/10, 7/10]
          [(1 : ℚ)/2, 1/2]) 2 r).map Slot.w).sum = 1000 - 10 * (((2 : Nat) : Int) - 1)) ∧
     (∀ c < 2,
      ((gridCol (compute_weighted_grid 2 2 (Rect.mk 0 0 1000 1000) 10 [(3 : ℚ)/10, 7/10]
          [(1 : ℚ)/2, 1/2]) 2 2 c).map Slot.h).sum = 1000 - 10 * (((2 : Nat) : Int) - 1))) :=
  ⟨by decide, by decide,
    compute_weighted_grid_sums 2 2 (Rect.mk 0 0 1000 1000) 10 [(3 : ℚ)/10, 7/10]
      [(1 : ℚ)/2, 1/2] (by decide) (by decide) (by decide) (by decide)⟩

/-- C4: the usage score is monotone (non-decreasing) in total focus seconds and
in total switches, and antitone (non-increasing) in hours since last focus,
each while the other two quantities are held fixed. -/
theorem score_formula_monotone :
    (∀ s h f₁ f₂ : ℝ, f₁ ≤ f₂ → score_formula f₁ s h ≤ score_formula f₂ s h) ∧
    (∀ f h s₁ s₂ : ℝ, s₁ ≤ s₂ → score_formula f s₁ h ≤ score_formula f s₂ h) ∧
    (∀ f s h₁ h₂ : ℝ, h₁ ≤ h₂ → score_formula f s h₂ ≤ score_formula f s h₁) := by
  refine ⟨?_, ?_, ?_⟩
  · intro s h f₁ f₂ hf
    unfold score_formula
    have hlog : Real.log (max f₁ 1) ≤ Real.log (max f₂ 1) :=
      Real.log_le_log (lt_of_lt_of_le one_pos (le_max_right f₁ 1)) (max_le_max hf le_rfl)
    have h1 : max (Real.log (max f₁ 1)) 0 ≤ max (Real.log (max f₂ 1)) 0 :=
      max_le_max hlog le_rfl
    have h2 := mul_le_mul_of_nonneg_right h1 (by norm_num : (0 : ℝ) ≤ 10)
    linarith
  · intro f h s₁ s₂ hs
    unfold score_formula
    have h2 := mul_le_mul_of_nonneg_right (Real.sqrt_le_sqrt hs) (by norm_num : (0 : ℝ) ≤ 5)
    linarith
  · intro f s h₁ h₂ hh
    unfold score_formula
    have hexp : (0.5 : ℝ) ^ (h₂ / 4) ≤ (0.5 : ℝ) ^ (h₁ / 4) :=
      Real.rpow_le_rpow_of_exponent_ge (by norm_num) (by norm_num) (by linarith)
    have h2 := mul_le_mul_of_nonneg_right hexp (by norm_num : (0 : ℝ) ≤ 50)
    linarith

/-- Witness for C4 at concrete inputs. -/
theorem score_formula_monotone_witness :
    ((1 : ℝ) ≤ 2 ∧ score_formula 1 3 5 ≤ score_formula 2 3 5) ∧
    ((3 : ℝ) ≤ 4 ∧ score_formula 1 3 5 ≤ score_formula 1 4 5) ∧
    ((5 : ℝ) ≤ 6 ∧ score_formula 1 3 6 ≤ score_formula 1 3 5) :=
  ⟨⟨by norm_num, score_formula_monotone.1 3 5 1 2 (by norm_num)⟩,
   ⟨by norm_num, score_formula_monotone.2.1 1 5 3 4 (by norm_num)⟩,
   ⟨by norm_num, score_formula_monotone.2.2 1 3 5 6 (by norm_num)⟩⟩

theorem apply_decay_last_ts (db : ActivityDb) (now hl : ℝ) :
    (apply_decay db now hl).last_decay_ts = now := by
  simp only [apply_decay]
  split_ifs <;> rfl

theorem apply_decay_fixed (apps : List (String × AppRecord)) (now hl : ℝ) :
    apply_decay (ActivityDb.mk apps now) now hl = ActivityDb.mk apps now := by
  simp only [apply_decay]
  by_cases h0 : now > 0
  · rw [if_pos h0]
    have hng : ¬((now - now) / 86400 > 0.001) := by
      rw [sub_self, zero_div]
      norm_num
    rw [if_neg hng]
  · rw [if_neg h0]

/-- C5: applying decay a second time with zero wall-clock time elapsed since
the first application returns the database of the first application unchanged
— in particular every record's `total_focus_secs` and `total_switches` are
untouched: the elapsed-day guard (`elapsed_days > 0.001`) suppresses the
second application. -/
theorem apply_decay_idem (db : ActivityDb) (now hl : ℝ) :
    apply_decay (apply_decay db now hl) now hl = apply_decay db now hl := by
  have hts := apply_decay_last_ts db now hl
  rcases hdb : apply_decay db now hl with ⟨apps', ts'⟩
  rw [hdb] at hts
  simp only at hts
  rw [hts]
  exact apply_decay_fixed apps' now hl

/-- C6: for a database whose last decay timestamp is positive and a half-life
above the 0.001-day guard, applying decay exactly `half_life_days` days later
multiplies cumulative focus seconds by exactly 0.5 (in the real-number model of
`f64`): every record in the decayed database is a halved copy of an original
record, and every original record whose halved copy is not pruned survives,
halved. -/
theorem apply_decay_half_life (db : ActivityDb) (hl : ℝ)
    (h0 : 0 < db.last_decay_ts) (hhl : 0.001 < hl) :
    (∀ p ∈ (apply_decay db (db.last_decay_ts + hl * 86400) hl).apps,
      ∃ r₀, (p.1, r₀) ∈ db.apps ∧ p.2.total_focus_secs = r₀.total_focus_secs * (1 / 2) ∧
        p.2.total_switches = ⌊(r₀.total_switches : ℝ) * (1 / 2)⌋₊) ∧
    (∀ q ∈ db.apps,
      ¬((decay_record (1 / 2) q.2).total_focus_secs < 1 ∧
          (decay_record (1 / 2) q.2).total_switches = 0) →
        (q.1, decay_record (1 / 2) q.2) ∈
          (apply_decay db (db.last_decay_ts + hl * 86400) hl).apps) := by
  have hhl0 : hl ≠ 0 := ne_of_gt (by linarith)
  have helapsed : ((db.last_decay_ts + hl * 86400) - db.last_decay_ts) / 86400 = hl := by
    field_simp
  have hfac : (0.5 : ℝ) ^
      ((((db.last_decay_ts + hl * 86400) - db.last_decay_ts) / 86400) / hl) = 1 / 2 := by
    rw [helapsed, div_self hhl0, Real.rpow_one]
    norm_num
  have hres : apply_decay db (db.last_decay_ts + hl * 86400) hl =
      ActivityDb.mk
        ((db.apps.map (fun p => (p.1, decay_record (1 / 2) p.2))).filter
          (fun p => decide (¬(p.2.total_focus_secs < 1 ∧ p.2.total_switches = 0))))
        (db.last_decay_ts + hl * 86400) := by
    simp only [apply_decay]
    rw [if_pos h0, if_pos (by rw [helapsed]; exact hhl), hfac]
  constructor
  · intro p hp
    rw [hres] at hp
    simp only [List.mem_filter, List.mem_map] at hp
    obtain ⟨⟨q, hq, rfl⟩, _⟩ := hp
    exact ⟨q.2, by simpa using hq, rfl, rfl⟩
  · intro q hq hkeep
    rw [hres]
    refine List.mem_filter.mpr ⟨List.mem_map.mpr ⟨q, hq, rfl⟩, ?_⟩
    simp only [decide_eq_true_eq]
    exact hkeep

/-- Witness for C6: one record with 100 focus seconds and 5 switches, last
decay at time 1, half-life 7 days. -/
theorem apply_decay_half_life_witness :
    (0 : ℝ) < 1 ∧ (0.001 : ℝ) < 7 ∧
    ((∀ p ∈ (apply_decay (ActivityDb.mk [("a", AppRecord.mk 100 5 3 "Other" "t")] 1)
          (1 + 7 * 86400) 7).apps,
      ∃ r₀, (p.1, r₀) ∈ [("a", AppRecord.mk 100 5 3 "Other" "t")] ∧
        p.2.total_focus_secs = r₀.total_focus_secs * (1 / 2) ∧
        p.2.total_switches = ⌊(r₀.total_switches : ℝ) * (1 / 2)⌋₊) ∧
     (∀ q ∈ [("a", AppRecord.mk 100 5 3 "Other" "t")],
      ¬((decay_record (1 / 2) q.2).total_focus_secs < 1 ∧
          (decay_record (1 / 2) q.2).total_switches = 0) →
        (q.1, decay_record (1 / 2) q.2) ∈
          (apply_decay (ActivityDb.mk [("a", AppRecord.mk 100 5 3 "Other" "t")] 1)
            (1 + 7 * 86400) 7).apps)) :=
  ⟨by norm_num, by norm_num,
    apply_decay_half_life (ActivityDb.mk [("a", AppRecord.mk 100 5 3 "Other" "t")] 1) 7
      (by norm_num) (by norm_num)⟩

theorem pin_slot_of_lt {pin_rules : List PinRule} {nslots : Nat} {w : ManagedWindow} {s : Nat}
    (h : pin_slot_of pin_rules nslots w = some s) : s < nslots := by
  induction pin_rules with
  | nil => cases h
  | cons r rest ih =>
    by_cases hc : (r.matches w.process_name w.title && decide (r.slot < nslots)) = true
    · rw [pin_slot_of, if_pos hc] at h
      cases h
      simp only [Bool.and_eq_true, decide_eq_true_eq] at hc
      exact hc.2
    · rw [pin_slot_of, if_neg hc] at h
      exact ih h

theorem split_pins_fst_filter (pin_rules : List PinRule) (nslots s₀ : Nat) :
    ∀ ws : List ManagedWindow,
      ((split_pins pin_rules nslots ws).1.filter (fun p => decide (p.1 = s₀))) =
        (ws.filter (fun w => decide (pin_slot_of pin_rules nslots w = some s₀))).map
          (fun w => (s₀, w))
  | [] => rfl
  | w :: ws => by
    rw [split_pins]
    cases h : pin_slot_of pin_rules nslots w with
    | some s =>
      by_cases hs : s = s₀
      · subst hs
        rw [List.filter_cons_of_pos (by simp), List.filter_cons_of_pos (by simp [h]),
          List.map_cons]
        exact congrArg _ (split_pins_fst_filter pin_rules nslots s ws)
      · rw [List.filter_cons_of_neg (by simpa using hs),
          List.filter_cons_of_neg (by simp [h, hs]),
          split_pins_fst_filter pin_rules nslots s₀ ws]
    | none =>
      rw [List.filter_cons_of_neg (by simp [h]),
        split_pins_fst_filter pin_rules nslots s₀ ws]

theorem place_pinned_of_filter_nil (i : Nat) :
    ∀ (pinned : List (Nat × ManagedWindow)) (init : List (Option ManagedWindow)),
      pinned.filter (fun p => decide (p.1 = i)) = [] →
      (place_pinned pinned init)[i]? = init[i]?
  | [], _, _ => rfl
  | p :: rest, init, h => by
    have hp : ¬(p.1 = i) := by
      intro hip
      rw [List.filter_cons_of_pos (by simpa using hip)] at h
      cases h
    rw [List.filter_cons_of_neg (by simpa using hp)] at h
    rw [place_pinned, List.foldl_cons]
    have := place_pinned_of_filter_nil i rest (init.set p.1 (some p.2)) h
    rw [place_pinned] at this
    rw [this, List.getElem?_set_ne hp]

theorem place_pinned_of_filter_single (i : Nat) (w : ManagedWindow) :
    ∀ (pinned : List (Nat × ManagedWindow)) (init : List (Option ManagedWindow)),
      pinned.filter (fun p => decide (p.1 = i)) = [(i, w)] → i < init.length →
      (place_pinned pinned init)[i]? = some (some w)
  | [], _, h, _ => by cases h
  | p :: rest, init, h, hlen => by
    by_cases hp : p.1 = i
    · rw [List.filter_cons_of_pos (by simpa using hp)] at h
      obtain ⟨rfl, hrest⟩ := List.cons_eq_cons.mp h
      rw [place_pinned, List.foldl_cons]
      have := place_pinned_of_filter_nil i rest (init.set i (some w)) hrest
      rw [place_pinned] at this
      rw [this, List.getElem?_set_self (by simpa using hlen)]
    · rw [List.filter_cons_of_neg (by simpa using hp)] at h
      rw [place_pinned, List.foldl_cons]
      have := place_pinned_of_filter_single i w rest (init.set p.1 (some p.2)) h
        (by simpa using hlen)
      rw [place_pinned] at this
      rw [this]

theorem fill_slots_nil_unpinned (used : List Nat) :
    ∀ (final : List (Option ManagedWindow)) (i : Nat),
      fill_slots used final i [] = (final, [])
  | [], _ => rfl
  | o :: rest, i => by
    simp only [fill_slots]
    by_cases hc : (o.isNone && !(used.contains i)) = true
    · rw [if_pos hc, fill_slots_nil_unpinned used rest (i + 1)]
    · rw [if_neg hc, fill_slots_nil_unpinned used rest (i + 1)]

theorem fill_slots_fst_some (used : List Nat) (w : ManagedWindow) :
    ∀ (final : List (Option ManagedWindow)) (i : Nat) (us : List ManagedWindow) (j : Nat),
      final[j]? = some (some w) → (fill_slots used final i us).1[j]? = some (some w)
  | [], _, _, j, h => by cases h
  | o :: rest, i, us, 0, h => by
    have ho : o = some w := by simpa using h
    subst ho
    simp [fill_slots]
  | o :: rest, i, us, j + 1, h => by
    have hrest : rest[j]? = some (some w) := by simpa using h
    simp only [fill_slots]
    by_cases hc : (o.isNone && !(used.contains i)) = true
    · rw [if_pos hc]
      cases us with
      | nil => simpa using fill_slots_fst_some used w rest (i + 1) [] j hrest
      | cons u ut => simpa using fill_slots_fst_some used w rest (i + 1) ut j hrest
    · rw [if_neg hc]
      simpa using fill_slots_fst_some used w rest (i + 1) us j hrest

theorem position_calls_mem (w : ManagedWindow) :
    ∀ (final : List (Option ManagedWindow)) (slots : List Slot) (k : Nat) (sl : Slot),
      final[k]? = some (some w) → slots[k]? = some sl →
      (w, sl) ∈ position_calls final slots
  | [], _, k, _, hf, _ => by cases hf
  | _, [], k, _, _, hs => by cases hs
  | o :: frest, s0 :: srest, 0, sl, hf, hs => by
    have ho : o = some w := by simpa using hf
    have hsl : s0 = sl := by simpa using hs
    subst ho
    subst hsl
    simp [position_calls]
  | o :: frest, s0 :: srest, k + 1, sl, hf, hs => by
    have hmem : (w, sl) ∈ position_calls frest srest :=
      position_calls_mem w frest srest k sl (by simpa using hf) (by simpa using hs)
    unfold position_calls at hmem ⊢
    rw [List.zip_cons_cons, List.filterMap_cons]
    cases o with
    | none => simpa using hmem
    | some u => simp only [Option.map_some]; exact List.mem_cons_of_mem _ hmem

theorem position_calls_replicate_none :
    ∀ (n : Nat) (slots : List Slot),
      position_calls (List.replicate n none) slots = []
  | 0, slots => rfl
  | n + 1, [] => rfl
  | n + 1, s0 :: srest => by
    rw [List.replicate_succ]
    unfold position_calls
    rw [List.zip_cons_cons, List.filterMap_cons]
    exact position_calls_replicate_none n srest

theorem position_calls_single (w : ManagedWindow) :
    ∀ (slots : List Slot) (s : Nat), s < slots.length →
      position_calls ((List.replicate slots.length none).set s (some w)) slots =
        [(w, slots.getD s (Slot.mk 0 0 0 0))]
  | [], s, hs => by cases hs
  | s0 :: srest, 0, _ => by
    rw [List.length_cons, List.replicate_succ, List.set_cons_zero]
    rw [show position_calls (some w :: List.replicate srest.length none) (s0 :: srest)
        = (w, s0) :: position_calls (List.replicate srest.length none) srest from rfl]
    rw [position_calls_replicate_none srest.length srest, List.getD_cons_zero]
  | s0 :: srest, s + 1, hs => by
    rw [List.length_cons, List.replicate_succ, List.set_cons_succ]
    rw [show position_calls ((none : Option ManagedWindow) ::
          (List.replicate srest.length none).set s (some w)) (s0 :: srest)
        = position_calls ((List.replicate srest.length none).set s (some w)) srest from rfl]
    rw [List.getD_cons_succ]
    exact position_calls_single w srest s (by simpa using hs)

theorem sort_by_score_nil (activity : Option (ManagedWindow → ℚ)) :
    sort_by_score activity [] = [] := by
  cases activity <;> simp [sort_by_score]

theorem assign_with_pins_pinned_mem (slots : List Slot) (windows : List ManagedWindow)
    (activity : Option (ManagedWindow → ℚ)) (pin_rules : List PinRule) (w : ManagedWindow)
    (s₀ : Nat)
    (huniq : windows.filter
        (fun x => decide (pin_slot_of pin_rules slots.length x = some s₀)) = [w]) :
    (w, slots.getD s₀ (Slot.mk 0 0 0 0)) ∈
      position_calls (assign_with_pins slots windows activity pin_rules).1 slots := by
  have hwmem : w ∈ windows.filter
      (fun x => decide (pin_slot_of pin_rules slots.length x = some s₀)) := by
    rw [huniq]
    exact List.mem_singleton.mpr rfl
  have hw : pin_slot_of pin_rules slots.length w = some s₀ :=
    of_decide_eq_true (List.mem_filter.mp hwmem).2
  have hs₀ : s₀ < slots.length := pin_slot_of_lt hw
  have hpf : ((split_pins pin_rules slots.length windows).1.filter
      (fun p => decide (p.1 = s₀))) = [(s₀, w)] := by
    rw [split_pins_fst_filter, huniq]
    rfl
  have hplace : (place_pinned (split_pins pin_rules slots.length windows).1
      (List.replicate slots.length none))[s₀]? = some (some w) :=
    place_pinned_of_filter_single s₀ w _ _ hpf (by simpa using hs₀)
  have hfin : (assign_with_pins slots windows activity pin_rules).1[s₀]? = some (some w) := by
    unfold assign_with_pins
    exact fill_slots_fst_some _ w _ 0 _ s₀ hplace
  have hslot : slots[s₀]? = some (slots.getD s₀ (Slot.mk 0 0 0 0)) := by
    rw [List.getD_eq_getElem _ _ hs₀]
    exact List.getElem?_eq_getElem hs₀
  exact position_calls_mem w _ slots s₀ _ hfin hslot

/-- C2 (amended): in the smart-sort path with a non-empty pin-rule list, when
exactly one discovered window pin-resolves (by its first matching in-range
rule) to slot index s₀, that window is positioned into slot s₀'s rectangle —
independently of the discovery order of the windows (the hypothesis constrains
only the filtered list) and of the usage scores of the other windows (the
score function is arbitrary). -/
theorem pinned_window_lands_in_slot (m0 : MonitorInfo) (mrest : List MonitorInfo)
    (preset : LayoutPreset) (spec : String) (gap : Int) (disabled : List Nat)
    (weights : Option (List ℚ × List ℚ)) (windows : List ManagedWindow)
    (activity : Option (ManagedWindow → ℚ)) (r : PinRule) (rs : List PinRule)
    (w : ManagedWindow) (s₀ : Nat)
    (huniq : windows.filter (fun x => decide (pin_slot_of (r :: rs)
        (arrange_slots ((resolve_monitor (m0 :: mrest) spec).getD m0) preset gap disabled weights).length x = some s₀)) = [w]) :
    (w, (arrange_slots ((resolve_monitor (m0 :: mrest) spec).getD m0) preset gap disabled weights).getD s₀ (Slot.mk 0 0 0 0)) ∈
      (arrange_masked (m0 :: mrest) preset spec gap disabled weights windows true activity
        (r :: rs)).2 :=
  assign_with_pins_pinned_mem (arrange_slots ((resolve_monitor (m0 :: mrest) spec).getD m0) preset gap disabled weights) windows activity (r :: rs) w s₀ huniq

theorem assign_with_pins_duplicate (slots : List Slot)
    (activity : Option (ManagedWindow → ℚ)) (pin_rules : List PinRule)
    (w1 w2 : ManagedWindow) (s : Nat)
    (h1 : pin_slot_of pin_rules slots.length w1 = some s)
    (h2 : pin_slot_of pin_rules slots.length w2 = some s) :
    assign_with_pins slots [w1, w2] activity pin_rules =
      ((List.replicate slots.length none).set s (some w2), []) := by
  have hsp : split_pins pin_rules slots.length [w1, w2] = ([(s, w1), (s, w2)], []) := by
    simp [split_pins, h1, h2]
  unfold assign_with_pins
  rw [hsp]
  show fill_slots [s, s] (place_pinned [(s, w1), (s, w2)] (List.replicate slots.length none)) 0
      (sort_by_score activity []) = _
  rw [sort_by_score_nil]
  rw [show place_pinned [(s, w1), (s, w2)] (List.replicate slots.length none)
      = ((List.replicate slots.length none).set s (some w1)).set s (some w2) from rfl]
  rw [List.set_set]
  exact fill_slots_nil_unpinned _ _ 0

/-- C9: in the smart-sort-with-pins path, when the two discovered windows both
pin-resolve to the same enabled slot index, only the later-processed window is
positioned into that slot; the earlier window is overwritten and appears in no
counter — arranged + skipped + number of errors is 1, strictly less than the
2 discovered windows. -/
theorem duplicate_pin_overwrite (m0 : MonitorInfo) (mrest : List MonitorInfo)
    (preset : LayoutPreset) (spec : String) (gap : Int) (disabled : List Nat)
    (weights : Option (List ℚ × List ℚ)) (activity : Option (ManagedWindow → ℚ))
    (r : PinRule) (rs : List PinRule) (w1 w2 : ManagedWindow) (s : Nat)
    (hne : w1 ≠ w2)
    (h1 : pin_slot_of (r :: rs) (arrange_slots ((resolve_monitor (m0 :: mrest) spec).getD m0) preset gap disabled weights).length w1 = some s)
    (h2 : pin_slot_of (r :: rs) (arrange_slots ((resolve_monitor (m0 :: mrest) spec).getD m0) preset gap disabled weights).length w2 = some s) :
    (∀ sl : Slot, (w1, sl) ∉ (arrange_masked (m0 :: mrest) preset spec gap disabled weights [w1, w2] true activity (r :: rs)).2) ∧
    (w2, (arrange_slots ((resolve_monitor (m0 :: mrest) spec).getD m0) preset gap disabled weights).getD s (Slot.mk 0 0 0 0)) ∈ (arrange_masked (m0 :: mrest) preset spec gap disabled weights [w1, w2] true activity (r :: rs)).2 ∧
    (arrange_masked (m0 :: mrest) preset spec gap disabled weights [w1, w2] true activity (r :: rs)).1.arranged + (arrange_masked (m0 :: mrest) preset spec gap disabled weights [w1, w2] true activity (r :: rs)).1.skipped + (arrange_masked (m0 :: mrest) preset spec gap disabled weights [w1, w2] true activity (r :: rs)).1.errors.length = 1 ∧
    (arrange_masked (m0 :: mrest) preset spec gap disabled weights [w1, w2] true activity (r :: rs)).1.arranged + (arrange_masked (m0 :: mrest) preset spec gap disabled weights [w1, w2] true activity (r :: rs)).1.skipped + (arrange_masked (m0 :: mrest) preset spec gap disabled weights [w1, w2] true activity (r :: rs)).1.errors.length <
      ([w1, w2] : List ManagedWindow).length := by
  have hs : s < (arrange_slots ((resolve_monitor (m0 :: mrest) spec).getD m0) preset gap disabled weights).length := pin_slot_of_lt h1
  have hassign := assign_with_pins_duplicate (arrange_slots ((resolve_monitor (m0 :: mrest) spec).getD m0) preset gap disabled weights) activity (r :: rs) w1 w2 s h1 h2
  have hmaster : arrange_masked (m0 :: mrest) preset spec gap disabled weights [w1, w2] true activity (r :: rs) =
      (ArrangeResult.mk 1 0 [],
        [(w2, (arrange_slots ((resolve_monitor (m0 :: mrest) spec).getD m0) preset gap disabled weights).getD s (Slot.mk 0 0 0 0))]) := by
    show (ArrangeResult.mk
        (position_calls (assign_with_pins (arrange_slots ((resolve_monitor (m0 :: mrest) spec).getD m0) preset gap disabled weights) [w1, w2] activity (r :: rs)).1 (arrange_slots ((resolve_monitor (m0 :: mrest) spec).getD m0) preset gap disabled weights)).length
        (assign_with_pins (arrange_slots ((resolve_monitor (m0 :: mrest) spec).getD m0) preset gap disabled weights) [w1, w2] activity (r :: rs)).2.length [],
      position_calls (assign_with_pins (arrange_slots ((resolve_monitor (m0 :: mrest) spec).getD m0) preset gap disabled weights) [w1, w2] activity (r :: rs)).1 (arrange_slots ((resolve_monitor (m0 :: mrest) spec).getD m0) preset gap disabled weights)) = _
    rw [hassign]
    dsimp only
    rw [position_calls_single w2 _ s hs]
    rfl
  refine ⟨?_, ?_, ?_, ?_⟩
  · intro sl hmem
    rw [hmaster] at hmem
    simp only [List.mem_singleton, Prod.mk.injEq] at hmem
    exact hne hmem.1
  · rw [hmaster]
    exact List.mem_singleton.mpr rfl
  · rw [hmaster]
    rfl
  · rw [hmaster]
    simp

def wA : ManagedWindow :=
  ManagedWindow.mk 1 "Alpha" "a.exe" AppCategory.Other (Rect.mk 0 0 1 1) false

def wB : ManagedWindow :=
  ManagedWindow.mk 2 "Beta" "b.exe" AppCategory.Other (Rect.mk 0 0 1 1) false

def wC : ManagedWindow :=
  ManagedWindow.mk 3 "Gamma" "c.exe" AppCategory.Other (Rect.mk 0 0 1 1) false

def wA2 : ManagedWindow :=
  ManagedWindow.mk 4 "Alpha2" "a.exe" AppCategory.Other (Rect.mk 0 0 1 1) false

/-- Witness for the amended C2: three windows discovered as [wB, wA, wC] (the
"a.exe" window second), a Columns(4) preset giving 4 enabled slots, the single
pin rule "a.exe" → slot 2, smart sort on, constant scores. -/
theorem pinned_window_lands_in_slot_witness :
    ([wB, wA, wC].filter (fun x => decide (pin_slot_of [PinRule.mk (some "a.exe") none 2]
        (arrange_slots ((resolve_monitor [mA] "primary").getD mA) (LayoutPreset.Columns 4) 0 [] none).length x = some 2)) = [wA]) ∧
    (wA, (arrange_slots ((resolve_monitor [mA] "primary").getD mA) (LayoutPreset.Columns 4) 0 [] none).getD 2 (Slot.mk 0 0 0 0)) ∈
      (arrange_masked [mA] (LayoutPreset.Columns 4) "primary" 0 [] none [wB, wA, wC] true
        (some (fun _ => 0)) [PinRule.mk (some "a.exe") none 2]).2 :=
  ⟨by decide,
    pinned_window_lands_in_slot mA [] (LayoutPreset.Columns 4) "primary" 0 [] none
      [wB, wA, wC] (some (fun _ => 0)) (PinRule.mk (some "a.exe") none 2) [] wA 2 (by decide)⟩

/-- C2 counterexample to the claim as stated: over all arrangement calls the
property fails, because with smart sort disabled pin rules are ignored
entirely.  Concretely: slot 2 of the 4-column layout on monitor mA is the
rectangle (50,0,25,100), yet with smart_sort = false the "a.exe" window
discovered first is positioned into slot 0, not slot 2. -/
theorem pinned_window_not_in_slot_without_smart_sort :
    ((arrange_slots ((resolve_monitor [mA] "primary").getD mA) (LayoutPreset.Columns 4) 0 [] none).getD 2 (Slot.mk 0 0 0 0) = Slot.mk 50 0 25 100) ∧
    (wA, Slot.mk 50 0 25 100) ∉
      (arrange_masked [mA] (LayoutPreset.Columns 4) "primary" 0 [] none [wA, wB, wC] false
        none [PinRule.mk (some "a.exe") none 2]).2 ∧
    (wA, Slot.mk 0 0 25 100) ∈
      (arrange_masked [mA] (LayoutPreset.Columns 4) "primary" 0 [] none [wA, wB, wC] false
        none [PinRule.mk (some "a.exe") none 2]).2 := by decide

/-- Witness for C9: two windows, both with process "a.exe", both pin-resolved
to slot 2 by the single rule; the four-conjunct conclusion is obtained from the
theorem with every hypothesis discharged by computation. -/
theorem duplicate_pin_overwrite_witness :
    (wA ≠ wA2) ∧
    (pin_slot_of [PinRule.mk (some "a.exe") none 2] (arrange_slots ((resolve_monitor [mA] "primary").getD mA) (LayoutPreset.Columns 4) 0 [] none).length wA = some 2) ∧
    (pin_slot_of [PinRule.mk (some "a.exe") none 2] (arrange_slots ((resolve_monitor [mA] "primary").getD mA) (LayoutPreset.Columns 4) 0 [] none).length wA2 = some 2) ∧
    ((∀ sl : Slot, (wA, sl) ∉ (arrange_masked [mA] (LayoutPreset.Columns 4) "primary" 0 []
        none [wA, wA2] true (some (fun _ => 0)) [PinRule.mk (some "a.exe") none 2]).2) ∧
     (wA2, (arrange_slots ((resolve_monitor [mA] "primary").getD mA) (LayoutPreset.Columns 4) 0 [] none).getD 2 (Slot.mk 0 0 0 0)) ∈
       (arrange_masked [mA] (LayoutPreset.Columns 4) "primary" 0 [] none [wA, wA2] true
         (some (fun _ => 0)) [PinRule.mk (some "a.exe") none 2]).2 ∧
     (arrange_masked [mA] (LayoutPreset.Columns 4) "primary" 0 [] none [wA, wA2] true
         (some (fun _ => 0)) [PinRule.mk (some "a.exe") none 2]).1.arranged +
       (arrange_masked [mA] (LayoutPreset.Columns 4) "primary" 0 [] none [wA, wA2] true
         (some (fun _ => 0)) [PinRule.mk (some "a.exe") none 2]).1.skipped +
       (arrange_masked [mA] (LayoutPreset.Columns 4) "primary" 0 [] none [wA, wA2] true
         (some (fun _ => 0)) [PinRule.mk (some "a.exe") none 2]).1.errors.length = 1 ∧
     (arrange_masked [mA] (LayoutPreset.Columns 4) "primary" 0 [] none [wA, wA2] true
         (some (fun _ => 0)) [PinRule.mk (some "a.exe") none 2]).1.arranged +
       (arrange_masked [mA] (LayoutPreset.Columns 4) "primary" 0 [] none [wA, wA2] true
         (some (fun _ => 0)) [PinRule.mk (some "a.exe") none 2]).1.skipped +
       (arrange_masked [mA] (LayoutPreset.Columns 4) "primary" 0 [] none [wA, wA2] true
         (some (fun _ => 0)) [PinRule.mk (some "a.exe") none 2]).1.errors.length <
       ([wA, wA2] : List ManagedWindow).length) :=
  ⟨by decide, by decide, by decide,
    duplicate_pin_overwrite mA [] (LayoutPreset.Columns 4) "primary" 0 [] none
      (some (fun _ => 0)) (PinRule.mk (some "a.exe") none 2) [] wA wA2 2 (by decide) (by decide) (by decide)⟩
